import Mathlib

/-!
Verification development for the Basecoat SEO Image Tool (`app.py`).

The pure core of the program is shallowly embedded here:

* `sanitize_filename`  — the two-regex title sanitizer (`app.py`, lines 91-94);
* `make_unique_path`   — collision-avoiding path search (`app.py`, lines 97-106);
* `basename`, `dirname`, `path_suffix` — the `os.path` / `pathlib` helpers the
  program relies on, modelled with POSIX separator semantics;
* `analyze_image`      — the response post-processing of the Gemini call
  (`app.py`, lines 185-194), with the network call and `json.loads`
  represented as oracles supplied by the caller;
* `process_worker`     — the sequential batch loop (`app.py`, lines 483-512),
  with the analysis call abstracted as an oracle and the Tk `after` callbacks
  recorded as an ordered event trace;
* `rename_pass` / `rename_files` — the rename step (`app.py`, lines 563-599),
  with the filesystem modelled as the list of existing paths and the success
  of `os.rename` decided by an oracle.

Machine strings are Lean `String`s (lists of Unicode code points), matching
Python `str` slicing and concatenation.  Python regex classes `\w` and `\s`
are modelled over their ASCII fragment.
-/

/-! ### Character classes of the sanitizer regexes -/

/-- ASCII fragment of Python regex `\w`: letters, digits, underscore. -/
def isWordChar (c : Char) : Bool :=
  c.isAlpha || c.isDigit || c = '_'

/-- Python regex `\s`: space, tab, newline, carriage return, vertical tab, form feed. -/
def isPySpace (c : Char) : Bool :=
  c = ' ' || c = '\t' || c = '\n' || c = '\r' || c = '\x0b' || c = '\x0c'

/-- Characters surviving `re.sub(r"[^\w\s-]", "", title)`. -/
def keepChar (c : Char) : Bool :=
  isWordChar c || isPySpace c || c = '-'

/-- Python `str.strip()` restricted to the modelled whitespace class. -/
def pyStrip (s : String) : String :=
  (((s.data.dropWhile isPySpace).reverse.dropWhile isPySpace).reverse).asString

/-- Python slicing `s[:n]` on code points. -/
def pyTake (n : Nat) (s : String) : String :=
  (s.data.take n).asString

/-- Replace every maximal run of whitespace by a single hyphen, the effect of
`re.sub(r"[\s]+", "-", name)`. -/
def collapseWS : List Char → List Char
  | [] => []
  | [c] => if isPySpace c then ['-'] else [c]
  | c :: d :: rest =>
    if isPySpace c && isPySpace d then collapseWS (d :: rest)
    else (if isPySpace c then '-' else c) :: collapseWS (d :: rest)

/-- `sanitize_filename` from `app.py` lines 91-94: drop characters outside
`[\w\s-]`, strip, then collapse whitespace runs to single hyphens. -/
def sanitize_filename (title : String) : String :=
  (collapseWS (pyStrip ⟨title.data.filter keepChar⟩).data).asString

/-! ### Decimal rendering of naturals, as Python `str(int)` -/

/-- Digit character for a value below ten. -/
def digitCh (d : Nat) : Char := Char.ofNat (48 + d)

/-- Big-endian digit list of `n`; `fuel ≥ n` suffices for full rendering. -/
def natReprAux : Nat → Nat → List Char
  | 0, _ => []
  | fuel + 1, n => if n = 0 then [] else natReprAux fuel (n / 10) ++ [digitCh (n % 10)]

/-- Decimal rendering of a natural number, matching Python `str(int)` and
the f-string interpolation used by the program. -/
def natRepr (n : Nat) : String :=
  if n = 0 then "0" else (natReprAux n n).asString

/-- Left inverse of the rendering: read a big-endian digit string back. -/
def unrepr (l : List Char) : Nat :=
  l.foldl (fun acc c => acc * 10 + (c.toNat - 48)) 0

/-! ### POSIX path helpers (`os.path.join`, `os.path.basename`,
`os.path.dirname`, `pathlib.Path.suffix`) -/

/-- `os.path.join(a, b)` for a single right argument, POSIX rules. -/
def pathJoin (a b : String) : String :=
  if b.data.head? = some '/' then b
  else if a = "" then b
  else if a.data.getLast? = some '/' then a ++ b
  else a ++ "/" ++ b

/-- `os.path.basename`: the part after the last separator. -/
def basename (p : String) : String :=
  ((p.data.reverse.takeWhile (fun c => ¬(c = '/'))).reverse).asString

/-- `os.path.dirname`: the part before the last separator, with trailing
separators stripped unless the head consists solely of separators. -/
def dirname (p : String) : String :=
  let hrev := p.data.reverse.dropWhile (fun c => ¬(c = '/'))
  if hrev.all (fun c => c = '/') then hrev.reverse.asString
  else (hrev.dropWhile (fun c => c = '/')).reverse.asString

/-- `pathlib.Path.suffix`: the final extension of the last path component,
nonempty only when the last dot of that component is neither its first nor
its last character. -/
def path_suffix (p : String) : String :=
  let name := (basename p).data
  let drev := name.reverse.takeWhile (fun c => ¬(c = '.'))
  match name.reverse.dropWhile (fun c => ¬(c = '.')) with
  | [] => ""
  | _ :: before =>
    if before = [] then ""
    else if drev = [] then ""
    else ('.' :: drev.reverse).asString

/-! ### Quick sanity checks of the embedding -/

example : sanitize_filename "Exterior House Painting!" = "Exterior-House-Painting" := by decide
example : sanitize_filename "  a   b  " = "a-b" := by decide
example : basename "d/a.jpg" = "a.jpg" := by decide
example : dirname "d/a.jpg" = "d" := by decide
example : dirname "/a" = "/" := by decide
example : path_suffix "d/a.jpg" = ".jpg" := by decide
example : path_suffix "d/.bashrc" = "" := by decide
example : path_suffix "d/a." = "" := by decide
example : natRepr 120 = "120" := by decide
example : pathJoin "d" "a.jpg" = "d/a.jpg" := by decide

/-! ### `make_unique_path` (`app.py`, lines 97-106)

The filesystem is modelled as the list of currently existing paths;
`os.path.exists` is list membership.  The source loops unboundedly over
counters 2, 3, …; a budget of `fs.length + 1` probes provably suffices
(`uniqueLoop_isSome`), so the fuelled loop below is an exact model. -/

/-- Candidate path `folder/stem-counter+ext` probed by the collision loop. -/
def suffixCand (folder stem ext : String) (counter : Nat) : String :=
  pathJoin folder (stem ++ "-" ++ natRepr counter ++ ext)

/-- The `while True` loop of `make_unique_path`: probe ascending counters,
returning the first candidate that does not exist. -/
def uniqueLoop (fs : List String) (folder stem ext : String) : Nat → Nat → Option String
  | 0, _ => none
  | fuel + 1, counter =>
    let candidate := suffixCand folder stem ext counter
    if candidate ∈ fs then uniqueLoop fs folder stem ext fuel (counter + 1)
    else some candidate

/-- `make_unique_path` from `app.py` lines 97-106. -/
def make_unique_path (fs : List String) (folder stem ext : String) : String :=
  let candidate := pathJoin folder (stem ++ ext)
  if candidate ∈ fs then
    (uniqueLoop fs folder stem ext (fs.length + 1) 2).getD candidate
  else candidate

/-! ### Analysis client (`analyze_image`, `app.py`, lines 137-194)

The network call and `json.loads` are external; they enter the model as
oracles.  A parsed JSON document is either an object — whose field values the
program only ever reads back as displayed strings, so they are modelled as
strings — or some non-object value, on which Python `dict.get` access raises. -/

/-- Result of `json.loads` on the cleaned response text. -/
inductive ParsedJson where
  | obj (fields : List (String × String))
  | nonObj
deriving DecidableEq

/-- Outcome of one analysis attempt as observed by the batch worker: the
returned `title`/`alt_text` pair, or the message of the raised exception. -/
inductive AnalysisOutcome where
  | success (title alt_text : String)
  | failure (message : String)
deriving DecidableEq

/-- The external `generate_content` call: either raises (network, auth,
quota, …) with a message, or returns the response text. -/
inductive ServiceResponse where
  | error (message : String)
  | text (body : String)
deriving DecidableEq

/-- Python `dict.get(k, default)` over an object built by `json.loads`,
where a duplicated key keeps its last occurrence. -/
def dictGetD (fields : List (String × String)) (k d : String) : String :=
  match fields.reverse.lookup k with
  | some v => v
  | none => d

/-- Fence stripping from `app.py` lines 186-188: only applied when the text
starts with three backticks; drops the opening fence, an optional `json`
marker and following whitespace, and a trailing fence preceded by
whitespace when the text ends with one. -/
def stripFences (text : String) : String :=
  if "```".data.isPrefixOf text.data then
    let t1 := text.data.drop 3
    let t2 := if "json".data.isPrefixOf t1 then t1.drop 4 else t1
    let t3 := t2.dropWhile isPySpace
    let t4 :=
      if "```".data.reverse.isPrefixOf t3.reverse then
        ((t3.reverse.drop 3).dropWhile isPySpace).reverse
      else t3
    t4.asString
  else text

/-- Placeholder for the message of the `json.JSONDecodeError` raised by
`json.loads`; its exact text is produced by the external library. -/
def jsonErrorMessage (t : String) : String :=
  "Expecting value: " ++ t

/-- Placeholder for the message of the `AttributeError` raised by calling
`.get` on a non-dict value. -/
def attributeErrorMessage : String :=
  "'list' object has no attribute 'get'"

/-- Response handling of `analyze_image` (`app.py`, lines 185-194): strip the
text, unwrap an optional fenced block, parse, and read the two fields with
defaults `"Untitled"` and `""`.  Any raised exception surfaces as `failure`,
which is what the worker's `except` clause observes. -/
def analyze_image (parse : String → Option ParsedJson) (resp : ServiceResponse) :
    AnalysisOutcome :=
  match resp with
  | .error m => .failure m
  | .text body =>
    let t := stripFences (pyStrip body)
    match parse t with
    | none => .failure (jsonErrorMessage t)
    | some .nonObj => .failure attributeErrorMessage
    | some (.obj fields) =>
      .success (dictGetD fields "title" "Untitled") (dictGetD fields "alt_text" "")

/-! ### Batch worker (`_process_worker`, `app.py`, lines 483-512) -/

/-- One row of `self.results`: the dict built at `app.py` lines 500-505. -/
structure ResultEntry where
  filepath : String
  original_name : String
  title : String
  alt_text : String
deriving DecidableEq

/-- Callbacks the worker posts to the UI context, in order: a status-label
update, a result-row insertion, a progress update `completed/total`. -/
inductive WorkerEvent where
  | statusUpdate (text : String)
  | addRow (entry : ResultEntry)
  | progress (completed total : Nat)
deriving DecidableEq

/-- Final state of one worker run: the accumulated `self.results`, the
`errors` list of failed file names, and the posted event trace. -/
structure WorkerResult where
  results : List ResultEntry
  errors : List String
  events : List WorkerEvent
deriving DecidableEq

/-- Status text `f"Processing i+1/total: filename..."`. -/
def processingMessage (i total : Nat) (filename : String) : String :=
  "Processing " ++ natRepr (i + 1) ++ "/" ++ natRepr total ++ ": " ++ filename ++ "..."

/-- Terminal status text, `f"Done! total image(s) processed."` plus the error
count when any item failed. -/
def doneMessage (total : Nat) (errors : List String) : String :=
  "Done! " ++ natRepr total ++ " image(s) processed." ++
    (if errors.isEmpty then "" else "  (" ++ natRepr errors.length ++ " error(s))")

/-- The entry the worker appends for one file, given the outcome of its
analysis call: the returned fields on success, the `"ERROR"` sentinel and
the exception text truncated to 120 characters on failure. -/
def entryFor (analyze : String → AnalysisOutcome) (filepath : String) : ResultEntry :=
  match analyze filepath with
  | .success t a => ⟨filepath, basename filepath, t, a⟩
  | .failure m => ⟨filepath, basename filepath, "ERROR", pyTake 120 m⟩

/-- The loop body of `_process_worker`, threading the accumulators. -/
def process_worker_go (analyze : String → AnalysisOutcome) (total : Nat) :
    List String → Nat → List ResultEntry → List String → List WorkerEvent → WorkerResult
  | [], _, results, errors, events =>
    ⟨results, errors, events ++ [.statusUpdate (doneMessage total errors)]⟩
  | filepath :: rest, i, results, errors, events =>
    let filename := basename filepath
    let entry := entryFor analyze filepath
    let errors' :=
      match analyze filepath with
      | .success _ _ => errors
      | .failure _ => errors ++ [filename]
    process_worker_go analyze total rest (i + 1) (results ++ [entry]) errors'
      (events ++ [.statusUpdate (processingMessage i total filename),
                  .addRow entry, .progress (i + 1) total])

/-- `_process_worker` (`app.py`, lines 483-512) over the scanned file list,
with the analysis call abstracted as an oracle. -/
def process_worker (analyze : String → AnalysisOutcome) (files : List String) :
    WorkerResult :=
  process_worker_go analyze files.length files 0 [] [] []

/-! ### Rename executor (`_rename_files`, `app.py`, lines 563-599) -/

/-- The `valid` list of `app.py` line 566: entries whose title is not the
`"ERROR"` sentinel. -/
def valid_results (results : List ResultEntry) : List ResultEntry :=
  results.filter (fun r => ¬(r.title = "ERROR"))

/-- Observable outcome of one rename pass: the processed entries (with
`filepath` updated in place on success), the filesystem afterwards, and the
two counters. -/
structure RenameOutcome where
  entries : List ResultEntry
  fs : List String
  renamed : Nat
  errors : Nat
deriving DecidableEq

/-- The `for result in valid` loop of `app.py` lines 579-592.  `ok old new`
decides whether `os.rename(old, new)` succeeds; on success the path list is
updated, on failure (the `except` branch) disk state is untouched. -/
def rename_pass (ok : String → String → Bool) :
    List ResultEntry → List String → Nat → Nat → RenameOutcome
  | [], fs, renamed, errors => ⟨[], fs, renamed, errors⟩
  | r :: rest, fs, renamed, errors =>
    let old_path := r.filepath
    if old_path ∈ fs then
      let ext := path_suffix old_path
      let new_stem := sanitize_filename r.title
      let new_path := make_unique_path fs (dirname old_path) new_stem ext
      if ok old_path new_path then
        let out := rename_pass ok rest (new_path :: fs.erase old_path) (renamed + 1) errors
        ⟨{ r with filepath := new_path } :: out.entries, out.fs, out.renamed, out.errors⟩
      else
        let out := rename_pass ok rest fs renamed (errors + 1)
        ⟨r :: out.entries, out.fs, out.renamed, out.errors⟩
    else
      let out := rename_pass ok rest fs renamed (errors + 1)
      ⟨r :: out.entries, out.fs, out.renamed, out.errors⟩

/-- `_rename_files` after the confirmation dialog: no-op when no valid
entries exist (`app.py` lines 566-569), otherwise the counting loop. -/
def rename_files (ok : String → String → Bool) (fs : List String)
    (results : List ResultEntry) : RenameOutcome :=
  if (valid_results results).isEmpty then ⟨valid_results results, fs, 0, 0⟩
  else rename_pass ok (valid_results results) fs 0 0

example :
    make_unique_path ["d/photo.jpg"] "d" "photo" ".jpg" = "d/photo-2.jpg" := by decide
example :
    make_unique_path ["d/photo.jpg", "d/photo-2.jpg"] "d" "photo" ".jpg" = "d/photo-3.jpg" := by
  decide
example : stripFences "```json\n\x7b\"title\": \"T\"\x7d\n```" = "\x7b\"title\": \"T\"\x7d" := by decide

/-! ### Lemmas about the batch worker -/

/-- Whether the analysis oracle fails on a given file. -/
def failsB (analyze : String → AnalysisOutcome) (fp : String) : Bool :=
  match analyze fp with
  | .failure _ => true
  | .success _ _ => false

lemma process_worker_go_results (analyze : String → AnalysisOutcome) (total : Nat)
    (files : List String) (i : Nat) (results : List ResultEntry) (errors : List String)
    (events : List WorkerEvent) :
    (process_worker_go analyze total files i results errors events).results =
      results ++ files.map (entryFor analyze) := by
  induction files generalizing i results errors events with
  | nil => simp [process_worker_go]
  | cons fp rest ih =>
    cases h : analyze fp <;> simp [process_worker_go, h, ih]

lemma process_worker_go_errors (analyze : String → AnalysisOutcome) (total : Nat)
    (files : List String) (i : Nat) (results : List ResultEntry) (errors : List String)
    (events : List WorkerEvent) :
    (process_worker_go analyze total files i results errors events).errors =
      errors ++ (files.filter (failsB analyze)).map basename := by
  induction files generalizing i results errors events with
  | nil => simp [process_worker_go]
  | cons fp rest ih =>
    cases h : analyze fp <;> simp [process_worker_go, failsB, h, ih]

lemma process_worker_go_last_event (analyze : String → AnalysisOutcome) (total : Nat)
    (files : List String) (i : Nat) (results : List ResultEntry) (errors : List String)
    (events : List WorkerEvent) :
    (process_worker_go analyze total files i results errors events).events.getLast? =
      some (.statusUpdate (doneMessage total
        (process_worker_go analyze total files i results errors events).errors)) := by
  induction files generalizing i results errors events with
  | nil => simp [process_worker_go]
  | cons fp rest ih =>
    cases h : analyze fp <;> simp only [process_worker_go, h] <;> exact ih ..

/-- C1: a completed run of the batch worker produces exactly one result entry
per input file, in input order — the entry at index `i` is derived from the
file at index `i`, whatever the analysis oracle returns; no entry is
reordered, dropped or duplicated. -/
theorem batch_run_preserves_order (analyze : String → AnalysisOutcome)
    (files : List String) :
    (process_worker analyze files).results = files.map (entryFor analyze) ∧
    (process_worker analyze files).results.length = files.length := by
  have h := process_worker_go_results analyze files.length files 0 [] [] []
  simp only [process_worker] at *
  exact ⟨by simpa using h, by simp [h]⟩

/-- C2: every item whose analysis call fails yields an entry with title
`"ERROR"` and the failure message truncated to at most 120 characters; the
run still produces an entry for every file, and the terminal status event
carries the failure count. -/
theorem batch_run_failure_isolation (analyze : String → AnalysisOutcome)
    (files : List String) :
    (∀ (i : Nat) (fp m : String), files[i]? = some fp → analyze fp = .failure m →
      (process_worker analyze files).results[i]? =
          some (ResultEntry.mk fp (basename fp) "ERROR" (pyTake 120 m)) ∧
        (pyTake 120 m).data.length ≤ 120) ∧
    (process_worker analyze files).results.length = files.length ∧
    (process_worker analyze files).errors.length =
      (files.filter (failsB analyze)).length ∧
    (process_worker analyze files).events.getLast? =
      some (.statusUpdate (doneMessage files.length (process_worker analyze files).errors)) := by
  have hres := process_worker_go_results analyze files.length files 0 [] [] []
  have herr := process_worker_go_errors analyze files.length files 0 [] [] []
  have hev := process_worker_go_last_event analyze files.length files 0 [] [] []
  simp only [process_worker] at *
  refine ⟨?_, by simp [hres], by simp [herr], hev⟩
  intro i fp m hfp hfail
  constructor
  · rw [hres]
    simp only [List.nil_append, List.getElem?_map, hfp, Option.map_some]
    simp [entryFor, hfail]
  · have h120 := List.length_take_le 120 m.data
    simp [pyTake]

/-! ### Lemmas about the sanitizer -/

lemma data_asString (l : List Char) : l.asString.data = l := rfl

lemma collapseWS_chars :
    ∀ l : List Char, ∀ c ∈ collapseWS l, c = '-' ∨ (c ∈ l ∧ isPySpace c = false)
  | [] => by simp [collapseWS]
  | [c] => by
    intro x hx
    by_cases h : isPySpace c = true
    · simp [collapseWS, h] at hx
      exact Or.inl hx
    · simp [collapseWS, h] at hx
      subst hx
      exact Or.inr ⟨List.mem_singleton_self _, by simpa using h⟩
  | c :: d :: rest => by
    intro x hx
    by_cases h : (isPySpace c && isPySpace d) = true
    · rw [collapseWS, if_pos h] at hx
      rcases collapseWS_chars (d :: rest) x hx with h1 | ⟨h2, h3⟩
      · exact Or.inl h1
      · exact Or.inr ⟨List.mem_cons_of_mem _ h2, h3⟩
    · rw [collapseWS, if_neg h] at hx
      rcases List.mem_cons.mp hx with h1 | h1
      · by_cases hc : isPySpace c = true
        · simp [hc] at h1
          exact Or.inl h1
        · simp [eq_false_of_ne_true hc] at h1
          subst h1
          exact Or.inr ⟨List.mem_cons_self .., by simpa using hc⟩
      · rcases collapseWS_chars (d :: rest) x h1 with h2 | ⟨h3, h4⟩
        · exact Or.inl h2
        · exact Or.inr ⟨List.mem_cons_of_mem _ h3, h4⟩

lemma pyStrip_chars (s : String) : ∀ c ∈ (pyStrip s).data, c ∈ s.data := by
  intro c hc
  simp only [pyStrip, data_asString, List.mem_reverse] at hc
  have h1 := (List.dropWhile_sublist (l := (s.data.dropWhile isPySpace).reverse)
    (p := isPySpace)).mem hc
  exact (List.dropWhile_sublist (l := s.data) (p := isPySpace)).mem
    (List.mem_reverse.mp h1)

/-- Every character of a sanitized title is a word character or a hyphen:
no whitespace and no punctuation survives. -/
lemma sanitize_filename_chars (s : String) :
    ∀ c ∈ (sanitize_filename s).data, isWordChar c = true ∨ c = '-' := by
  intro c hc
  simp only [sanitize_filename, data_asString] at hc
  rcases collapseWS_chars _ c hc with h | ⟨hmem, hsp⟩
  · exact Or.inr h
  · have hkeep : keepChar c = true := by
      have h2 : c ∈ (String.mk (s.data.filter keepChar)).data := pyStrip_chars _ c hmem
      exact List.of_mem_filter h2
    simp only [keepChar, Bool.or_eq_true] at hkeep
    rcases hkeep with (hw | hs) | hh
    · exact Or.inl hw
    · rw [hsp] at hs
      cases hs
    · exact Or.inr (by simpa using hh)

/-- C7: the sanitizer output contains only letters, digits, underscores and
hyphens — every other character is removed and whitespace runs become single
hyphens after trimming — and the two documented examples hold. -/
theorem sanitize_removes_and_collapses (s : String) :
    (∀ c ∈ (sanitize_filename s).data, isWordChar c = true ∨ c = '-') ∧
    sanitize_filename "Exterior House Painting!" = "Exterior-House-Painting" ∧
    sanitize_filename "  a   b  " = "a-b" :=
  ⟨sanitize_filename_chars s, by decide, by decide⟩

/-- Witness for C7 at a concrete character of a concrete sanitized string. -/
theorem sanitize_removes_and_collapses_witness :
    'a' ∈ (sanitize_filename "a b!").data ∧ (isWordChar 'a' = true ∨ 'a' = '-') :=
  ⟨by decide, (sanitize_removes_and_collapses "a b!").1 'a' (by decide)⟩

/-- Concrete failing analysis oracle used by the C2 witness. -/
def analyzeW : String → AnalysisOutcome :=
  fun fp => if fp = "d/a.jpg" then .failure (String.mk (List.replicate 150 'x')) else .success "T" "A"

/-- Witness for C2: a two-file run whose first analysis call fails. -/
theorem batch_run_failure_isolation_witness :
    (process_worker analyzeW ["d/a.jpg", "d/b.jpg"]).results[0]? =
        some (ResultEntry.mk "d/a.jpg" (basename "d/a.jpg") "ERROR"
          (pyTake 120 (String.mk (List.replicate 150 'x')))) ∧
      (pyTake 120 (String.mk (List.replicate 150 'x'))).data.length ≤ 120 :=
  (batch_run_failure_isolation analyzeW ["d/a.jpg", "d/b.jpg"]).1 0 "d/a.jpg"
    (String.mk (List.replicate 150 'x')) (by decide) (by decide)

/-! ### Lemmas about the rename executor -/

lemma mem_valid_results (results : List ResultEntry) (e : ResultEntry) :
    e ∈ valid_results results ↔ e ∈ results ∧ ¬(e.title = "ERROR") := by
  simp [valid_results]

lemma valid_results_idem (results : List ResultEntry) :
    valid_results (valid_results results) = valid_results results := by
  simp [valid_results, List.filter_filter]

lemma rename_pass_counts (ok : String → String → Bool) (l : List ResultEntry)
    (fs : List String) (a b : Nat) :
    (rename_pass ok l fs a b).renamed + (rename_pass ok l fs a b).errors =
      a + b + l.length := by
  induction l generalizing fs a b with
  | nil => simp [rename_pass]
  | cons r rest ih =>
    by_cases h1 : r.filepath ∈ fs
    · by_cases h2 : ok r.filepath (make_unique_path fs (dirname r.filepath)
        (sanitize_filename r.title) (path_suffix r.filepath)) = true
      · simp only [rename_pass, if_pos h1, if_pos h2]
        have := ih (make_unique_path fs (dirname r.filepath) (sanitize_filename r.title)
          (path_suffix r.filepath) :: fs.erase r.filepath) (a + 1) b
        simp only [List.length_cons]
        omega
      · simp only [rename_pass, if_pos h1, if_neg h2]
        have := ih fs a (b + 1)
        simp only [List.length_cons]
        omega
    · simp only [rename_pass, if_neg h1]
      have := ih fs a (b + 1)
      simp only [List.length_cons]
      omega

lemma rename_pass_length (ok : String → String → Bool) (l : List ResultEntry)
    (fs : List String) (a b : Nat) :
    (rename_pass ok l fs a b).entries.length = l.length := by
  induction l generalizing fs a b with
  | nil => simp [rename_pass]
  | cons r rest ih =>
    by_cases h1 : r.filepath ∈ fs
    · by_cases h2 : ok r.filepath (make_unique_path fs (dirname r.filepath)
        (sanitize_filename r.title) (path_suffix r.filepath)) = true
      · simp only [rename_pass, if_pos h1, if_pos h2, List.length_cons, ih]
      · simp only [rename_pass, if_pos h1, if_neg h2, List.length_cons, ih]
    · simp only [rename_pass, if_neg h1, List.length_cons, ih]

lemma rename_pass_fs_preserves (ok : String → String → Bool) (l : List ResultEntry)
    (fs : List String) (a b : Nat) (p : String) (hp : p ∈ fs)
    (h : ∀ r ∈ l, r.filepath ≠ p) : p ∈ (rename_pass ok l fs a b).fs := by
  induction l generalizing fs a b with
  | nil => simpa [rename_pass] using hp
  | cons r rest ih =>
    have hr : r.filepath ≠ p := h r (List.mem_cons_self ..)
    have hrest : ∀ x ∈ rest, x.filepath ≠ p := fun x hx => h x (List.mem_cons_of_mem _ hx)
    by_cases h1 : r.filepath ∈ fs
    · by_cases h2 : ok r.filepath (make_unique_path fs (dirname r.filepath)
        (sanitize_filename r.title) (path_suffix r.filepath)) = true
      · simp only [rename_pass, if_pos h1, if_pos h2]
        refine ih _ _ _ ?_ hrest
        exact List.mem_cons_of_mem _ ((List.mem_erase_of_ne (fun hpe => hr hpe.symm)).mpr hp)
      · simp only [rename_pass, if_pos h1, if_neg h2]
        exact ih _ _ _ hp hrest
    · simp only [rename_pass, if_neg h1]
      exact ih _ _ _ hp hrest

/-- C3: an entry carrying the Failure sentinel title `"ERROR"` is never
selected for renaming: its file survives the whole pass untouched, and the
two counters account exactly for the selected entries, so the sentinel entry
is counted in neither. -/
theorem failure_entry_never_renamed (ok : String → String → Bool) (fs : List String)
    (results : List ResultEntry) (e : ResultEntry)
    (ht : e.title = "ERROR") (hfs : e.filepath ∈ fs)
    (hdist : ∀ r ∈ results, ¬(r.title = "ERROR") → r.filepath ≠ e.filepath) :
    e ∉ valid_results results ∧
    e.filepath ∈ (rename_files ok fs results).fs ∧
    (rename_files ok fs results).renamed + (rename_files ok fs results).errors =
      (valid_results results).length := by
  have hnotmem : e ∉ valid_results results := by
    intro hmem
    exact ((mem_valid_results results e).mp hmem).2 ht
  have hvalid : ∀ r ∈ valid_results results, r.filepath ≠ e.filepath := by
    intro r hr
    have := (mem_valid_results results r).mp hr
    exact hdist r this.1 this.2
  refine ⟨hnotmem, ?_, ?_⟩
  · by_cases hemp : (valid_results results).isEmpty = true
    · simpa [rename_files, hemp] using hfs
    · simp only [rename_files, if_neg hemp]
      exact rename_pass_fs_preserves ok _ fs 0 0 e.filepath hfs hvalid
  · by_cases hemp : (valid_results results).isEmpty = true
    · simp [rename_files, hemp, List.isEmpty_iff.mp hemp]
    · simp only [rename_files, if_neg hemp]
      simpa using rename_pass_counts ok (valid_results results) fs 0 0

/-- Witness for C3: one sentinel entry and one good entry over a two-file
filesystem. -/
theorem failure_entry_never_renamed_witness :
    ResultEntry.mk "d/a.jpg" "a.jpg" "ERROR" "m" ∉
        valid_results [ResultEntry.mk "d/a.jpg" "a.jpg" "ERROR" "m",
          ResultEntry.mk "d/b.jpg" "b.jpg" "T" ""] ∧
      "d/a.jpg" ∈ (rename_files (fun _ _ => true) ["d/a.jpg", "d/b.jpg"]
        [ResultEntry.mk "d/a.jpg" "a.jpg" "ERROR" "m",
          ResultEntry.mk "d/b.jpg" "b.jpg" "T" ""]).fs ∧
      (rename_files (fun _ _ => true) ["d/a.jpg", "d/b.jpg"]
            [ResultEntry.mk "d/a.jpg" "a.jpg" "ERROR" "m",
              ResultEntry.mk "d/b.jpg" "b.jpg" "T" ""]).renamed +
          (rename_files (fun _ _ => true) ["d/a.jpg", "d/b.jpg"]
            [ResultEntry.mk "d/a.jpg" "a.jpg" "ERROR" "m",
              ResultEntry.mk "d/b.jpg" "b.jpg" "T" ""]).errors =
        (valid_results [ResultEntry.mk "d/a.jpg" "a.jpg" "ERROR" "m",
          ResultEntry.mk "d/b.jpg" "b.jpg" "T" ""]).length :=
  failure_entry_never_renamed (fun _ _ => true) ["d/a.jpg", "d/b.jpg"]
    [ResultEntry.mk "d/a.jpg" "a.jpg" "ERROR" "m", ResultEntry.mk "d/b.jpg" "b.jpg" "T" ""]
    (ResultEntry.mk "d/a.jpg" "a.jpg" "ERROR" "m") (by decide) (by decide) (by decide)

/-- C4: the per-entry contract of the rename loop.  A missing source file or
a failed `os.rename` increments the error counter, leaves the entry and the
disk untouched, and the pass continues with the remaining entries; a
successful rename updates the entry's path, removes the old path from disk,
adds the new one, and increments the rename counter.  The pass always
processes every entry and accounts each one in exactly one counter. -/
theorem rename_step_contract (ok : String → String → Bool) (fs : List String)
    (r : ResultEntry) (rest : List ResultEntry) (renamed errors : Nat) :
    (r.filepath ∉ fs →
      rename_pass ok (r :: rest) fs renamed errors =
        ⟨r :: (rename_pass ok rest fs renamed (errors + 1)).entries,
          (rename_pass ok rest fs renamed (errors + 1)).fs,
          (rename_pass ok rest fs renamed (errors + 1)).renamed,
          (rename_pass ok rest fs renamed (errors + 1)).errors⟩) ∧
    (r.filepath ∈ fs →
      ok r.filepath (make_unique_path fs (dirname r.filepath) (sanitize_filename r.title)
          (path_suffix r.filepath)) = false →
      rename_pass ok (r :: rest) fs renamed errors =
        ⟨r :: (rename_pass ok rest fs renamed (errors + 1)).entries,
          (rename_pass ok rest fs renamed (errors + 1)).fs,
          (rename_pass ok rest fs renamed (errors + 1)).renamed,
          (rename_pass ok rest fs renamed (errors + 1)).errors⟩) ∧
    (∀ new_path, new_path = make_unique_path fs (dirname r.filepath)
        (sanitize_filename r.title) (path_suffix r.filepath) →
      r.filepath ∈ fs → ok r.filepath new_path = true →
      rename_pass ok (r :: rest) fs renamed errors =
        ⟨{ r with filepath := new_path } ::
            (rename_pass ok rest (new_path :: fs.erase r.filepath) (renamed + 1) errors).entries,
          (rename_pass ok rest (new_path :: fs.erase r.filepath) (renamed + 1) errors).fs,
          (rename_pass ok rest (new_path :: fs.erase r.filepath) (renamed + 1) errors).renamed,
          (rename_pass ok rest (new_path :: fs.erase r.filepath) (renamed + 1) errors).errors⟩) ∧
    (rename_pass ok (r :: rest) fs renamed errors).renamed +
        (rename_pass ok (r :: rest) fs renamed errors).errors =
      renamed + errors + rest.length + 1 ∧
    (rename_pass ok (r :: rest) fs renamed errors).entries.length = rest.length + 1 := by
  refine ⟨?_, ?_, ?_, ?_, ?_⟩
  · intro h1
    simp only [rename_pass, if_neg h1]
  · intro h1 h2
    have h2' : ¬(ok r.filepath (make_unique_path fs (dirname r.filepath)
        (sanitize_filename r.title) (path_suffix r.filepath)) = true) := by
      rw [h2]
      decide
    simp only [rename_pass, if_pos h1, if_neg h2']
  · intro new_path hnp h1 h2
    subst hnp
    simp only [rename_pass, if_pos h1, if_pos h2]
  · have := rename_pass_counts ok (r :: rest) fs renamed errors
    simpa using this
  · simpa using rename_pass_length ok (r :: rest) fs renamed errors

/-- Witness for C4: the missing-file branch at a concrete entry whose source
path is absent from the filesystem. -/
theorem rename_step_contract_witness :
    rename_pass (fun _ _ => true)
        [ResultEntry.mk "d/gone.jpg" "gone.jpg" "T" ""] ["d/other.jpg"] 0 0 =
      ⟨[ResultEntry.mk "d/gone.jpg" "gone.jpg" "T" ""], ["d/other.jpg"], 0, 1⟩ :=
  (rename_step_contract (fun _ _ => true) ["d/other.jpg"]
    (ResultEntry.mk "d/gone.jpg" "gone.jpg" "T" "") [] 0 0).1 (by decide)

/-- C10 (implicit): selection for renaming is decided by the literal title
string alone — an entry is selected iff its title differs from `"ERROR"`.
Sentinel-titled entries are invisible to the pass (removing them changes
nothing), are counted in neither counter, and any entry whose title is
edited away from `"ERROR"` becomes eligible. -/
theorem rename_selection_is_by_title (ok : String → String → Bool) (fs : List String)
    (results : List ResultEntry) (e : ResultEntry) :
    (e ∈ valid_results results ↔ e ∈ results ∧ ¬(e.title = "ERROR")) ∧
    (e.title = "ERROR" → e ∉ valid_results results) ∧
    rename_files ok fs results = rename_files ok fs (valid_results results) ∧
    (rename_files ok fs results).renamed + (rename_files ok fs results).errors =
      (valid_results results).length ∧
    (∀ t, ¬(t = "ERROR") → ∀ l : List ResultEntry,
      { e with title := t } ∈ l → { e with title := t } ∈ valid_results l) := by
  refine ⟨mem_valid_results results e, ?_, ?_, ?_, ?_⟩
  · intro ht hmem
    exact ((mem_valid_results results e).mp hmem).2 ht
  · simp only [rename_files, valid_results_idem]
  · by_cases hemp : (valid_results results).isEmpty = true
    · simp [rename_files, hemp, List.isEmpty_iff.mp hemp]
    · simp only [rename_files, if_neg hemp]
      simpa using rename_pass_counts ok (valid_results results) fs 0 0
  · intro t ht l hl
    exact (mem_valid_results l _).mpr ⟨hl, by simpa using ht⟩

/-- Witness for C10: an analysis-successful entry whose title is the literal
string `"ERROR"` is skipped, while the same entry retitled is selected. -/
theorem rename_selection_is_by_title_witness :
    (ResultEntry.mk "d/a.jpg" "a.jpg" "ERROR" "looks fine" ∈
        valid_results [ResultEntry.mk "d/a.jpg" "a.jpg" "ERROR" "looks fine"] ↔
      ResultEntry.mk "d/a.jpg" "a.jpg" "ERROR" "looks fine" ∈
          [ResultEntry.mk "d/a.jpg" "a.jpg" "ERROR" "looks fine"] ∧
        ¬((ResultEntry.mk "d/a.jpg" "a.jpg" "ERROR" "looks fine").title = "ERROR")) ∧
    { ResultEntry.mk "d/a.jpg" "a.jpg" "ERROR" "looks fine" with title := "Roof" } ∈
      valid_results [{ ResultEntry.mk "d/a.jpg" "a.jpg" "ERROR" "looks fine" with
        title := "Roof" }] :=
  ⟨(rename_selection_is_by_title (fun _ _ => true) []
      [ResultEntry.mk "d/a.jpg" "a.jpg" "ERROR" "looks fine"]
      (ResultEntry.mk "d/a.jpg" "a.jpg" "ERROR" "looks fine")).1,
    (rename_selection_is_by_title (fun _ _ => true) []
      [ResultEntry.mk "d/a.jpg" "a.jpg" "ERROR" "looks fine"]
      (ResultEntry.mk "d/a.jpg" "a.jpg" "ERROR" "looks fine")).2.2.2.2 "Roof" (by decide)
      _ (List.mem_singleton_self ..)⟩

/-- C5: the source has no empty-stem guard.  An entry whose title sanitizes
to the empty string is not counted as failed: it is renamed to a bare
extension.  Here `"!!!"` sanitizes to `""` and the file `d/a.jpg` is renamed
to the hidden file `d/.jpg`, counted as a success. -/
theorem empty_stem_is_renamed_to_bare_extension :
    sanitize_filename "!!!" = "" ∧
    rename_files (fun _ _ => true) ["d/a.jpg"]
        [ResultEntry.mk "d/a.jpg" "a.jpg" "!!!" "alt"] =
      ⟨[ResultEntry.mk "d/.jpg" "a.jpg" "!!!" "alt"], ["d/.jpg"], 1, 0⟩ := by
  decide

/-! ### Injectivity of the decimal rendering -/

lemma digitCh_toNat (d : Nat) (h : d < 10) : (digitCh d).toNat = 48 + d := by
  interval_cases d <;> decide

lemma unrepr_append_digit (l : List Char) (c : Char) :
    unrepr (l ++ [c]) = unrepr l * 10 + (c.toNat - 48) := by
  simp [unrepr, List.foldl_append]

lemma unrepr_natReprAux : ∀ fuel n : Nat, n ≤ fuel → unrepr (natReprAux fuel n) = n := by
  intro fuel
  induction fuel with
  | zero =>
    intro n hn
    interval_cases n
    simp [natReprAux, unrepr]
  | succ fuel ih =>
    intro n hn
    by_cases h0 : n = 0
    · simp [natReprAux, h0, unrepr]
    · rw [natReprAux, if_neg h0, unrepr_append_digit]
      have hdiv : n / 10 ≤ fuel := by
        have := Nat.div_lt_self (Nat.pos_of_ne_zero h0) (by norm_num : 1 < 10)
        omega
      rw [ih (n / 10) hdiv, digitCh_toNat (n % 10) (Nat.mod_lt n (by norm_num))]
      omega

lemma asString_injective (l1 l2 : List Char) (h : l1.asString = l2.asString) : l1 = l2 := by
  have := congrArg String.data h
  simpa [data_asString] using this

lemma natRepr_injective : Function.Injective natRepr := by
  intro n m h
  by_cases hn : n = 0 <;> by_cases hm : m = 0
  · omega
  · exfalso
    rw [natRepr, if_pos hn, natRepr, if_neg hm] at h
    have h2 : natReprAux m m = ['0'] :=
      asString_injective _ _ (h.symm.trans (by rfl))
    have h3 := unrepr_natReprAux m m le_rfl
    rw [h2] at h3
    have h4 : unrepr ['0'] = 0 := by decide
    omega
  · exfalso
    rw [natRepr, if_neg hn, natRepr, if_pos hm] at h
    have h2 : natReprAux n n = ['0'] :=
      asString_injective _ _ (h.trans (by rfl))
    have h3 := unrepr_natReprAux n n le_rfl
    rw [h2] at h3
    have h4 : unrepr ['0'] = 0 := by decide
    omega
  · rw [natRepr, if_neg hn, natRepr, if_neg hm] at h
    have h2 := asString_injective _ _ h
    have h3 := unrepr_natReprAux n n le_rfl
    have h4 := unrepr_natReprAux m m le_rfl
    rw [h2] at h3
    omega

/-! ### Injectivity of the probed candidates -/

lemma string_append_left_cancel (a x y : String) (h : a ++ x = a ++ y) : x = y := by
  have hd := congrArg String.data h
  simp only [String.data_append] at hd
  exact String.ext (List.append_cancel_left hd)

lemma pathJoin_right_injective (a x y : String) (hhead : x.data.head? = y.data.head?)
    (h : pathJoin a x = pathJoin a y) : x = y := by
  unfold pathJoin at h
  by_cases h1 : x.data.head? = some '/'
  · have hy : y.data.head? = some '/' := hhead.symm.trans h1
    rw [if_pos h1, if_pos hy] at h
    exact h
  · have hy : ¬(y.data.head? = some '/') := fun hc => h1 (hhead.trans hc)
    rw [if_neg h1, if_neg hy] at h
    by_cases h2 : a = ""
    · rwa [if_pos h2, if_pos h2] at h
    · rw [if_neg h2, if_neg h2] at h
      by_cases h3 : a.data.getLast? = some '/'
      · rw [if_pos h3, if_pos h3] at h
        exact string_append_left_cancel a x y h
      · rw [if_neg h3, if_neg h3] at h
        exact string_append_left_cancel (a ++ "/") x y h

lemma middle_append_cancel (p e r1 r2 : List Char)
    (h : p ++ r1 ++ e = p ++ r2 ++ e) : r1 = r2 := by
  have h1 : p ++ (r1 ++ e) = p ++ (r2 ++ e) := by simpa [List.append_assoc] using h
  exact List.append_cancel_right (List.append_cancel_left h1)

lemma suffixCand_injective (folder stem ext : String) :
    Function.Injective (suffixCand folder stem ext) := by
  intro k k' h
  unfold suffixCand at h
  have hhead : (stem ++ "-" ++ natRepr k ++ ext).data.head? =
      (stem ++ "-" ++ natRepr k' ++ ext).data.head? := by
    simp only [String.data_append]
    cases hs : stem.data with
    | nil => simp [hs]
    | cons c cs => simp [hs]
  have hb := pathJoin_right_injective folder _ _ hhead h
  have hdata := congrArg String.data hb
  simp only [String.data_append, List.append_assoc] at hdata
  have hmid : (natRepr k).data = (natRepr k').data := by
    have h2 : (stem.data ++ "-".data) ++ (natRepr k).data ++ ext.data =
        (stem.data ++ "-".data) ++ (natRepr k').data ++ ext.data := by
      simpa [List.append_assoc] using hdata
    exact middle_append_cancel _ _ _ _ h2
  exact natRepr_injective (String.ext hmid)

/-! ### A fresh candidate always exists within the probe budget -/

lemma exists_fresh_candidate (fs : List String) (folder stem ext : String) (counter : Nat) :
    ∃ j, j ≤ fs.length ∧ suffixCand folder stem ext (counter + j) ∉ fs := by
  by_contra hall
  push_neg at hall
  have hmem : ∀ j : Fin (fs.length + 1),
      suffixCand folder stem ext (counter + j.1) ∈ fs.toFinset := by
    intro j
    exact List.mem_toFinset.mpr (hall j.1 (Nat.lt_succ_iff.mp j.2))
  have hinj : Function.Injective
      (fun j : Fin (fs.length + 1) => suffixCand folder stem ext (counter + j.1)) := by
    intro a b hab
    have := suffixCand_injective folder stem ext hab
    exact Fin.ext (by omega)
  have hsub : Finset.image
      (fun j : Fin (fs.length + 1) => suffixCand folder stem ext (counter + j.1))
      Finset.univ ⊆ fs.toFinset := by
    intro x hx
    rcases Finset.mem_image.mp hx with ⟨j, _, hj⟩
    exact hj ▸ hmem j
  have hcard := Finset.card_le_card hsub
  rw [Finset.card_image_of_injective _ hinj, Finset.card_univ, Fintype.card_fin] at hcard
  have := List.toFinset_card_le fs
  omega

/-! ### Characterization of the probe loop -/

lemma uniqueLoop_sound (fs : List String) (folder stem ext : String) :
    ∀ (fuel counter : Nat) (s : String),
      uniqueLoop fs folder stem ext fuel counter = some s →
      s ∉ fs ∧ ∃ j, s = suffixCand folder stem ext (counter + j) ∧
        ∀ i < j, suffixCand folder stem ext (counter + i) ∈ fs := by
  intro fuel
  induction fuel with
  | zero => intro counter s h; simp [uniqueLoop] at h
  | succ fuel ih =>
    intro counter s h
    rw [uniqueLoop] at h
    by_cases hmem : suffixCand folder stem ext counter ∈ fs
    · rw [if_pos hmem] at h
      rcases ih (counter + 1) s h with ⟨hnot, j, hj, hmin⟩
      refine ⟨hnot, j + 1, by rw [hj]; ring_nf, ?_⟩
      intro i hi
      rcases Nat.eq_zero_or_pos i with h0 | h0
      · subst h0
        simpa using hmem
      · have := hmin (i - 1) (by omega)
        have harg : counter + 1 + (i - 1) = counter + i := by omega
        rwa [harg] at this
    · rw [if_neg hmem] at h
      have hs : s = suffixCand folder stem ext counter := by
        simpa using h.symm
      refine ⟨hs ▸ hmem, 0, by simpa using hs, by omega⟩

lemma uniqueLoop_some (fs : List String) (folder stem ext : String) :
    ∀ (fuel counter j : Nat), j < fuel →
      suffixCand folder stem ext (counter + j) ∉ fs →
      ∃ s, uniqueLoop fs folder stem ext fuel counter = some s := by
  intro fuel
  induction fuel with
  | zero => omega
  | succ fuel ih =>
    intro counter j hj hfree
    rw [uniqueLoop]
    by_cases hmem : suffixCand folder stem ext counter ∈ fs
    · rw [if_pos hmem]
      have hj0 : j ≠ 0 := by
        intro h0
        subst h0
        simp at hfree
        exact hfree hmem
      have harg : counter + 1 + (j - 1) = counter + j := by omega
      exact ih (counter + 1) (j - 1) (by omega) (harg ▸ hfree)
    · rw [if_neg hmem]
      exact ⟨_, rfl⟩

/-- Full characterization of `make_unique_path`: the base candidate when it
does not exist, otherwise the smallest-suffix free candidate; never an
existing path. -/
lemma make_unique_path_spec (fs : List String) (folder stem ext : String) :
    make_unique_path fs folder stem ext ∉ fs ∧
    (pathJoin folder (stem ++ ext) ∉ fs →
      make_unique_path fs folder stem ext = pathJoin folder (stem ++ ext)) ∧
    (pathJoin folder (stem ++ ext) ∈ fs →
      ∃ k, 2 ≤ k ∧ make_unique_path fs folder stem ext = suffixCand folder stem ext k ∧
        suffixCand folder stem ext k ∉ fs ∧
        ∀ j, 2 ≤ j → j < k → suffixCand folder stem ext j ∈ fs) := by
  by_cases hbase : pathJoin folder (stem ++ ext) ∈ fs
  · rcases exists_fresh_candidate fs folder stem ext 2 with ⟨j0, hj0, hfree⟩
    rcases uniqueLoop_some fs folder stem ext (fs.length + 1) 2 j0 (by omega) hfree
      with ⟨s, hs⟩
    rcases uniqueLoop_sound fs folder stem ext (fs.length + 1) 2 s hs
      with ⟨hnot, j, hj, hmin⟩
    have hval : make_unique_path fs folder stem ext = s := by
      simp [make_unique_path, hbase, hs]
    refine ⟨hval ▸ hnot, fun hc => absurd hbase hc, fun _ => ⟨2 + j, by omega, ?_, ?_, ?_⟩⟩
    · rw [hval, hj]
    · rw [← hj]
      exact hnot
    · intro i h2 hik
      have := hmin (i - 2) (by omega)
      have harg : 2 + (i - 2) = i := by omega
      rwa [harg] at this
  · have hval : make_unique_path fs folder stem ext = pathJoin folder (stem ++ ext) := by
      simp [make_unique_path, hbase]
    exact ⟨hval ▸ hbase, fun _ => hval, fun hc => absurd hc hbase⟩

/-- C6: the unique-path search returns the base candidate when it does not
exist, and otherwise the candidate with the smallest numeric suffix `k ≥ 2`
that does not exist; the returned path never exists at the moment of the
check. -/
theorem unique_path_contract (fs : List String) (folder stem ext : String) :
    make_unique_path fs folder stem ext ∉ fs ∧
    (pathJoin folder (stem ++ ext) ∉ fs →
      make_unique_path fs folder stem ext = pathJoin folder (stem ++ ext)) ∧
    (pathJoin folder (stem ++ ext) ∈ fs →
      ∃ k, 2 ≤ k ∧ make_unique_path fs folder stem ext = suffixCand folder stem ext k ∧
        suffixCand folder stem ext k ∉ fs ∧
        ∀ j, 2 ≤ j → j < k → suffixCand folder stem ext j ∈ fs) :=
  make_unique_path_spec fs folder stem ext

/-- Witness for C6: the documented probe example over an existing
`photo.jpg` and `photo-2.jpg`. -/
theorem unique_path_contract_witness :
    make_unique_path ["d/photo.jpg", "d/photo-2.jpg"] "d" "photo" ".jpg" ∉
        ["d/photo.jpg", "d/photo-2.jpg"] ∧
      (pathJoin "d" ("photo" ++ ".jpg") ∈ ["d/photo.jpg", "d/photo-2.jpg"] →
        ∃ k, 2 ≤ k ∧ make_unique_path ["d/photo.jpg", "d/photo-2.jpg"] "d" "photo" ".jpg" =
            suffixCand "d" "photo" ".jpg" k ∧
          suffixCand "d" "photo" ".jpg" k ∉ ["d/photo.jpg", "d/photo-2.jpg"] ∧
          ∀ j, 2 ≤ j → j < k → suffixCand "d" "photo" ".jpg" j ∈
            ["d/photo.jpg", "d/photo-2.jpg"]) :=
  ⟨(unique_path_contract ["d/photo.jpg", "d/photo-2.jpg"] "d" "photo" ".jpg").1,
    (unique_path_contract ["d/photo.jpg", "d/photo-2.jpg"] "d" "photo" ".jpg").2.2⟩

/-! ### The analysis client contract -/

/-- Parse oracle returning an object whose `title` field is present but
empty. -/
def parseEmptyTitle : String → Option ParsedJson :=
  fun _ => some (.obj [("title", ""), ("alt_text", "x")])

/-- Counterexample to C8 as stated: a well-formed JSON response whose
`title` field is the empty string yields `Success` with the empty title —
the `"Untitled"` default is applied only to a missing field, not to an
empty one. -/
theorem analysis_empty_title_not_defaulted :
    analyze_image parseEmptyTitle (.text "resp") = .success "" "x" ∧
      ¬("" = "Untitled") := by
  decide

/-- C8 (amended): the client returns `Success` for every response parsing
(after strip and fence removal) to a JSON object, reading each field with
`dict.get` — the defaults `"Untitled"` and `""` are substituted only when
the field is missing, while a present field (empty or not) is passed
through verbatim; it returns `Failure` exactly when the service call
raises, the response is not JSON, or the parsed value is not an object. -/
theorem analysis_client_contract (parse : String → Option ParsedJson)
    (resp : ServiceResponse) :
    (∀ m, resp = .error m → analyze_image parse resp = .failure m) ∧
    (∀ body fields, resp = .text body →
      parse (stripFences (pyStrip body)) = some (.obj fields) →
      analyze_image parse resp =
        .success (dictGetD fields "title" "Untitled") (dictGetD fields "alt_text" "")) ∧
    (∀ fields : List (String × String), fields.reverse.lookup "title" = none →
      dictGetD fields "title" "Untitled" = "Untitled") ∧
    (∀ fields : List (String × String), fields.reverse.lookup "alt_text" = none →
      dictGetD fields "alt_text" "" = "") ∧
    (∀ (fields : List (String × String)) (v : String),
      fields.reverse.lookup "title" = some v → dictGetD fields "title" "Untitled" = v) ∧
    (∀ body, resp = .text body → parse (stripFences (pyStrip body)) = none →
      ∃ m, analyze_image parse resp = .failure m) ∧
    (∀ body, resp = .text body → parse (stripFences (pyStrip body)) = some .nonObj →
      ∃ m, analyze_image parse resp = .failure m) ∧
    (∀ m, analyze_image parse resp = .failure m →
      (∃ m2, resp = .error m2) ∨
        ∃ body, resp = .text body ∧
          (parse (stripFences (pyStrip body)) = none ∨
            parse (stripFences (pyStrip body)) = some .nonObj)) := by
  refine ⟨?_, ?_, ?_, ?_, ?_, ?_, ?_, ?_⟩
  · intro m h
    subst h
    rfl
  · intro body fields h hp
    subst h
    simp [analyze_image, hp]
  · intro fields h
    simp [dictGetD, h]
  · intro fields h
    simp [dictGetD, h]
  · intro fields v h
    simp [dictGetD, h]
  · intro body h hp
    subst h
    exact ⟨jsonErrorMessage (stripFences (pyStrip body)), by simp [analyze_image, hp]⟩
  · intro body h hp
    subst h
    exact ⟨attributeErrorMessage, by simp [analyze_image, hp]⟩
  · intro m h
    cases resp with
    | error m2 => exact Or.inl ⟨m2, rfl⟩
    | text body =>
      refine Or.inr ⟨body, rfl, ?_⟩
      rcases hp : parse (stripFences (pyStrip body)) with _ | pj
      · exact Or.inl rfl
      · cases pj with
        | obj fields =>
          exfalso
          simp [analyze_image, hp] at h
        | nonObj => exact Or.inr rfl

/-- Witness for the amended C8 at a concrete raised service error. -/
theorem analysis_client_contract_witness :
    analyze_image parseEmptyTitle (.error "quota exceeded") = .failure "quota exceeded" :=
  (analysis_client_contract parseEmptyTitle (.error "quota exceeded")).1
    "quota exceeded" rfl

/-! ### Path anatomy lemmas used for the repeated-rename analysis -/

lemma takeWhile_all {α : Type} (p : α → Bool) (l : List α)
    (h : ∀ c ∈ l, p c = true) : l.takeWhile p = l := by
  induction l with
  | nil => rfl
  | cons c rest ih =>
    rw [List.takeWhile_cons, if_pos (h c (List.mem_cons_self ..))]
    rw [ih (fun x hx => h x (List.mem_cons_of_mem _ hx))]

lemma dropWhile_all {α : Type} (p : α → Bool) (l : List α)
    (h : ∀ c ∈ l, p c = true) : l.dropWhile p = [] := by
  induction l with
  | nil => rfl
  | cons c rest ih =>
    rw [List.dropWhile_cons, if_pos (h c (List.mem_cons_self ..))]
    exact ih (fun x hx => h x (List.mem_cons_of_mem _ hx))

lemma takeWhile_append_all {α : Type} (p : α → Bool) (l1 l2 : List α)
    (h : ∀ c ∈ l1, p c = true) :
    (l1 ++ l2).takeWhile p = l1 ++ l2.takeWhile p := by
  induction l1 with
  | nil => simp
  | cons c rest ih =>
    rw [List.cons_append, List.takeWhile_cons, if_pos (h c (List.mem_cons_self ..))]
    rw [ih (fun x hx => h x (List.mem_cons_of_mem _ hx)), List.cons_append]

lemma dropWhile_append_all {α : Type} (p : α → Bool) (l1 l2 : List α)
    (h : ∀ c ∈ l1, p c = true) :
    (l1 ++ l2).dropWhile p = l2.dropWhile p := by
  induction l1 with
  | nil => simp
  | cons c rest ih =>
    rw [List.cons_append, List.dropWhile_cons, if_pos (h c (List.mem_cons_self ..))]
    exact ih (fun x hx => h x (List.mem_cons_of_mem _ hx))

lemma data_ne_of_ne_empty (s : String) (h : ¬(s = "")) : s.data ≠ [] := by
  intro hd
  exact h (String.ext (by simp [hd]))

/-- Shape every `dirname` output has: empty, all separators, or not ending
in a separator. -/
def dirOk (d : String) : Prop :=
  d = "" ∨ (∀ c ∈ d.data, c = '/') ∨ ¬(d.data.getLast? = some '/')

lemma dropWhile_head_false {α : Type} (p : α → Bool) (l : List α) (c : α) (rest : List α)
    (h : l.dropWhile p = c :: rest) : p c = false := by
  induction l with
  | nil => simp at h
  | cons a as ih =>
    rw [List.dropWhile_cons] at h
    by_cases ha : p a = true
    · rw [if_pos ha] at h
      exact ih h
    · rw [if_neg ha] at h
      cases h
      simpa using ha

lemma dirname_dirOk (p : String) : dirOk (dirname p) := by
  unfold dirname dirOk
  by_cases hall : (p.data.reverse.dropWhile (fun c => ¬(c = '/'))).all (fun c => c = '/') = true
  · rw [if_pos hall]
    refine Or.inr (Or.inl ?_)
    intro c hc
    rw [data_asString, List.mem_reverse] at hc
    exact of_decide_eq_true (List.all_eq_true.mp hall c hc)
  · rw [if_neg hall]
    rcases hdrop : (p.data.reverse.dropWhile (fun c => ¬(c = '/'))).dropWhile
        (fun c => c = '/') with _ | ⟨c, rest⟩
    · exact Or.inl (String.ext (by simp [data_asString, hdrop]))
    · refine Or.inr (Or.inr ?_)
      have hc := dropWhile_head_false (fun c => c = '/') _ c rest hdrop
      simp only [decide_eq_false_iff_not] at hc
      simp [data_asString, List.getLast?_reverse, hc]

lemma name_head_not_sep (name : String) (hsl : ∀ c ∈ name.data, ¬(c = '/')) :
    ¬(name.data.head? = some '/') := by
  intro h
  exact hsl '/' (List.mem_of_mem_head? (by simp [h])) rfl

lemma basename_pathJoin (d name : String) (hd : dirOk d)
    (hsl : ∀ c ∈ name.data, ¬(c = '/')) : basename (pathJoin d name) = name := by
  have hcond1 := name_head_not_sep name hsl
  have hallrev : ∀ c ∈ name.data.reverse, (fun x => decide (¬(x = '/'))) c = true := by
    intro c hc
    simpa using hsl c (List.mem_reverse.mp hc)
  apply String.ext
  by_cases hd0 : d = ""
  · rw [pathJoin, if_neg hcond1, if_pos hd0]
    show (name.data.reverse.takeWhile (fun c => ¬(c = '/'))).reverse = name.data
    rw [takeWhile_all _ _ hallrev, List.reverse_reverse]
  · by_cases hlast : d.data.getLast? = some '/'
    · have hall_d : ∀ c ∈ d.data, c = '/' := by
        rcases hd with h0 | h1 | h2
        · exact absurd h0 hd0
        · exact h1
        · exact absurd hlast h2
      rw [pathJoin, if_neg hcond1, if_neg hd0, if_pos hlast]
      show (((d ++ name).data.reverse).takeWhile (fun c => ¬(c = '/'))).reverse = name.data
      rw [String.data_append, List.reverse_append, takeWhile_append_all _ _ _ hallrev]
      cases hdr : d.data.reverse with
      | nil =>
        exact absurd (by simpa using congrArg List.reverse hdr) (data_ne_of_ne_empty d hd0)
      | cons c0 cs0 =>
        have hc0 : c0 = '/' := hall_d c0 (List.mem_reverse.mp (hdr ▸ List.mem_cons_self ..))
        rw [List.takeWhile_cons, if_neg (by simp [hc0]), List.append_nil, List.reverse_reverse]
    · rw [pathJoin, if_neg hcond1, if_neg hd0, if_neg hlast]
      show (((d ++ "/" ++ name).data.reverse).takeWhile (fun c => ¬(c = '/'))).reverse = name.data
      have hdata : (d ++ "/" ++ name).data = (d.data ++ ['/']) ++ name.data := by
        simp [String.data_append]
      have hrevsplit : (d.data ++ ['/']).reverse = '/' :: d.data.reverse := by
        simp
      rw [hdata, List.reverse_append, hrevsplit, takeWhile_append_all _ _ _ hallrev,
        List.takeWhile_cons, if_neg (by simp), List.append_nil, List.reverse_reverse]

lemma dirname_pathJoin (d name : String) (hd : dirOk d)
    (hsl : ∀ c ∈ name.data, ¬(c = '/')) : dirname (pathJoin d name) = d := by
  have hcond1 := name_head_not_sep name hsl
  have hallrev : ∀ c ∈ name.data.reverse, (fun x => decide (¬(x = '/'))) c = true := by
    intro c hc
    simpa using hsl c (List.mem_reverse.mp hc)
  by_cases hd0 : d = ""
  · rw [pathJoin, if_neg hcond1, if_pos hd0, hd0]
    rw [dirname]
    simp only [dropWhile_all _ _ hallrev, List.all_nil, if_pos]
    rfl
  · by_cases hlast : d.data.getLast? = some '/'
    · have hall_d : ∀ c ∈ d.data, c = '/' := by
        rcases hd with h0 | h1 | h2
        · exact absurd h0 hd0
        · exact h1
        · exact absurd hlast h2
      rw [pathJoin, if_neg hcond1, if_neg hd0, if_pos hlast]
      cases hdr : d.data.reverse with
      | nil =>
        exact absurd (by simpa using congrArg List.reverse hdr) (data_ne_of_ne_empty d hd0)
      | cons c0 cs0 =>
        have hc0 : c0 = '/' := hall_d c0 (List.mem_reverse.mp (hdr ▸ List.mem_cons_self ..))
        have hdrev : (d ++ name).data.reverse = name.data.reverse ++ d.data.reverse := by
          rw [String.data_append, List.reverse_append]
        have hdrop : (d ++ name).data.reverse.dropWhile (fun c => ¬(c = '/')) =
            d.data.reverse := by
          rw [hdrev, dropWhile_append_all _ _ _ hallrev, hdr, List.dropWhile_cons,
            if_neg (by simp [hc0]), ← hdr]
        rw [dirname]
        simp only [hdrop]
        have hall2 : d.data.reverse.all (fun c => c = '/') = true := by
          rw [List.all_eq_true]
          intro x hx
          simpa using hall_d x (List.mem_reverse.mp hx)
        rw [if_pos hall2, List.reverse_reverse]
        rfl
    · have hc1 : ∃ c1 cs1, d.data.reverse = c1 :: cs1 ∧ ¬(c1 = '/') := by
        cases hdr : d.data.reverse with
        | nil =>
          exact absurd (by simpa using congrArg List.reverse hdr)
            (data_ne_of_ne_empty d hd0)
        | cons c1 cs1 =>
          refine ⟨c1, cs1, rfl, ?_⟩
          intro hcontra
          apply hlast
          rw [← List.head?_reverse, hdr, List.head?_cons, hcontra]
      rcases hc1 with ⟨c1, cs1, hdr, hc1ne⟩
      rw [pathJoin, if_neg hcond1, if_neg hd0, if_neg hlast]
      have hdata : (d ++ "/" ++ name).data = (d.data ++ ['/']) ++ name.data := by
        simp [String.data_append]
      have hdrev : (d ++ "/" ++ name).data.reverse =
          name.data.reverse ++ ('/' :: d.data.reverse) := by
        rw [hdata, List.reverse_append]
        simp
      have hdrop : (d ++ "/" ++ name).data.reverse.dropWhile (fun c => ¬(c = '/')) =
          '/' :: d.data.reverse := by
        rw [hdrev, dropWhile_append_all _ _ _ hallrev, List.dropWhile_cons,
          if_neg (by simp)]
      rw [dirname]
      simp only [hdrop]
      have hallfail : ¬(('/' :: d.data.reverse).all (fun c => c = '/') = true) := by
        rw [List.all_eq_true]
        intro hcontra
        exact hc1ne (by simpa using hcontra c1 (by rw [hdr]; simp))
      rw [if_neg hallfail, List.dropWhile_cons, if_pos (by simp), hdr,
        List.dropWhile_cons, if_neg (by simpa using hc1ne), ← hdr, List.reverse_reverse]
      rfl

/-! ### Extension anatomy -/

/-- Shape every `path_suffix` output has: empty, or a dot followed by a
nonempty run of characters that are neither dots nor separators. -/
def extOk (ext : String) : Prop :=
  ext = "" ∨ ∃ t : List Char, t ≠ [] ∧ ext.data = '.' :: t ∧
    ∀ c ∈ t, ¬(c = '.') ∧ ¬(c = '/')

lemma basename_no_slash (p : String) : ∀ c ∈ (basename p).data, ¬(c = '/') := by
  intro c hc
  rw [basename, data_asString, List.mem_reverse] at hc
  simpa using List.mem_takeWhile_imp hc

lemma path_suffix_extOk (p : String) : extOk (path_suffix p) := by
  simp only [path_suffix]
  rcases hdrop : (basename p).data.reverse.dropWhile (fun c => ¬(c = '.'))
    with _ | ⟨c, before⟩
  · exact Or.inl rfl
  · show extOk (if before = [] then "" else
      if (basename p).data.reverse.takeWhile (fun c => ¬(c = '.')) = [] then ""
      else ('.' :: ((basename p).data.reverse.takeWhile
        (fun c => ¬(c = '.'))).reverse).asString)
    by_cases hb : before = []
    · rw [if_pos hb]
      exact Or.inl rfl
    · rw [if_neg hb]
      by_cases hdv : (basename p).data.reverse.takeWhile (fun c => ¬(c = '.')) = []
      · rw [if_pos hdv]
        exact Or.inl rfl
      · rw [if_neg hdv]
        refine Or.inr ⟨((basename p).data.reverse.takeWhile
          (fun c => ¬(c = '.'))).reverse, by simpa using hdv, rfl, ?_⟩
        intro x hx
        have hx2 := List.mem_reverse.mp hx
        constructor
        · simpa using List.mem_takeWhile_imp hx2
        · have hsub := (List.takeWhile_sublist
            (l := (basename p).data.reverse) (p := fun c => decide (¬(c = '.')))).mem hx2
          exact basename_no_slash p x (List.mem_reverse.mp hsub)

lemma extOk_no_slash (ext : String) (h : extOk ext) : ∀ c ∈ ext.data, ¬(c = '/') := by
  rcases h with h0 | ⟨t, _, hdata, hchars⟩
  · subst h0
    intro c hc
    simp at hc
  · intro c hc
    rw [hdata] at hc
    rcases List.mem_cons.mp hc with h1 | h1
    · subst h1
      decide
    · exact (hchars c h1).2

lemma path_suffix_concat (q stem2 ext : String)
    (hb : basename q = stem2 ++ ext)
    (hne : stem2.data ≠ [])
    (hnd : ∀ c ∈ stem2.data, ¬(c = '.'))
    (hext : extOk ext) :
    path_suffix q = ext := by
  simp only [path_suffix, hb]
  rcases hext with h0 | ⟨t, ht_ne, ht_data, ht_chars⟩
  · subst h0
    have hdata : (stem2 ++ "").data = stem2.data := by
      simp [String.data_append]
    have hall : ∀ c ∈ stem2.data.reverse, (fun x => decide (¬(x = '.'))) c = true := by
      intro c hc
      simpa using hnd c (List.mem_reverse.mp hc)
    rw [hdata, dropWhile_all _ _ hall]
  · have hdata : (stem2 ++ ext).data.reverse = t.reverse ++ ('.' :: stem2.data.reverse) := by
      rw [String.data_append, ht_data, List.reverse_append, List.reverse_cons,
        List.append_assoc, List.singleton_append]
    have halltrev : ∀ c ∈ t.reverse, (fun x => decide (¬(x = '.'))) c = true := by
      intro c hc
      simpa using (ht_chars c (List.mem_reverse.mp hc)).1
    have hdrop : (stem2 ++ ext).data.reverse.dropWhile (fun c => ¬(c = '.')) =
        '.' :: stem2.data.reverse := by
      rw [hdata, dropWhile_append_all _ _ _ halltrev, List.dropWhile_cons,
        if_neg (by simp)]
    have htake : (stem2 ++ ext).data.reverse.takeWhile (fun c => ¬(c = '.')) =
        t.reverse := by
      rw [hdata, takeWhile_append_all _ _ _ halltrev, List.takeWhile_cons,
        if_neg (by simp), List.append_nil]
    rw [hdrop, htake]
    show (if stem2.data.reverse = [] then "" else
      if t.reverse = [] then "" else ('.' :: t.reverse.reverse).asString) = ext
    rw [if_neg (by simpa using hne), if_neg (by simpa using ht_ne)]
    apply String.ext
    rw [data_asString, List.reverse_reverse, ht_data]

/-! ### Character classes of sanitized stems and rendered counters -/

lemma sanitize_no_dot_slash (ttl : String) :
    ∀ c ∈ (sanitize_filename ttl).data, ¬(c = '.') ∧ ¬(c = '/') := by
  intro c hc
  rcases sanitize_filename_chars ttl c hc with hw | hh
  · constructor <;> intro he <;> rw [he] at hw <;> exact absurd hw (by decide)
  · subst hh
    exact ⟨by decide, by decide⟩

lemma natReprAux_chars :
    ∀ fuel n : Nat, ∀ c ∈ natReprAux fuel n, ¬(c = '.') ∧ ¬(c = '/') := by
  intro fuel
  induction fuel with
  | zero =>
    intro n c hc
    simp [natReprAux] at hc
  | succ fuel ih =>
    intro n c hc
    rw [natReprAux] at hc
    by_cases h0 : n = 0
    · rw [if_pos h0] at hc
      simp at hc
    · rw [if_neg h0] at hc
      rcases List.mem_append.mp hc with h1 | h1
      · exact ih (n / 10) c h1
      · have hd : n % 10 < 10 := Nat.mod_lt n (by norm_num)
        have hc2 : c = digitCh (n % 10) := by simpa using h1
        subst hc2
        set d := n % 10 with hdef
        interval_cases d <;> exact ⟨by decide, by decide⟩

lemma natRepr_chars (n : Nat) : ∀ c ∈ (natRepr n).data, ¬(c = '.') ∧ ¬(c = '/') := by
  intro c hc
  rw [natRepr] at hc
  by_cases h0 : n = 0
  · rw [if_pos h0] at hc
    have : c = '0' := by simpa using hc
    subst this
    exact ⟨by decide, by decide⟩
  · rw [if_neg h0, data_asString] at hc
    exact natReprAux_chars n n c hc

/-- Anatomy of every path the rename step can produce for a given directory,
sanitized stem and extension: its directory and suffix are recovered
unchanged, both for the base candidate and for every suffixed candidate. -/
lemma target_anatomy (dir stem ext : String) (hdir : dirOk dir)
    (hstem_ne : stem.data ≠ [])
    (hstem_chars : ∀ c ∈ stem.data, ¬(c = '.') ∧ ¬(c = '/'))
    (hext : extOk ext) :
    (dirname (pathJoin dir (stem ++ ext)) = dir ∧
      path_suffix (pathJoin dir (stem ++ ext)) = ext) ∧
    ∀ k : Nat, dirname (suffixCand dir stem ext k) = dir ∧
      path_suffix (suffixCand dir stem ext k) = ext := by
  have hext_sl := extOk_no_slash ext hext
  have hbase_sl : ∀ c ∈ (stem ++ ext).data, ¬(c = '/') := by
    intro c hc
    rw [String.data_append] at hc
    rcases List.mem_append.mp hc with h | h
    · exact (hstem_chars c h).2
    · exact hext_sl c h
  constructor
  · have hb := basename_pathJoin dir (stem ++ ext) hdir hbase_sl
    refine ⟨dirname_pathJoin dir (stem ++ ext) hdir hbase_sl, ?_⟩
    exact path_suffix_concat _ stem ext hb hstem_ne (fun c hc => (hstem_chars c hc).1) hext
  · intro k
    have hstem2 : (stem ++ "-" ++ natRepr k).data =
        (stem.data ++ ['-']) ++ (natRepr k).data := by
      simp [String.data_append]
    have hstem2_ne : (stem ++ "-" ++ natRepr k).data ≠ [] := by
      rw [hstem2]
      simp
    have hstem2_chars : ∀ c ∈ (stem ++ "-" ++ natRepr k).data, ¬(c = '.') ∧ ¬(c = '/') := by
      intro c hc
      rw [hstem2] at hc
      rcases List.mem_append.mp hc with h | h
      · rcases List.mem_append.mp h with h2 | h2
        · exact hstem_chars c h2
        · have : c = '-' := by simpa using h2
          subst this
          exact ⟨by decide, by decide⟩
      · exact natRepr_chars k c h
    have hname_sl : ∀ c ∈ (stem ++ "-" ++ natRepr k ++ ext).data, ¬(c = '/') := by
      intro c hc
      rw [String.data_append] at hc
      rcases List.mem_append.mp hc with h | h
      · exact (hstem2_chars c h).2
      · exact hext_sl c h
    have hb := basename_pathJoin dir (stem ++ "-" ++ natRepr k ++ ext) hdir hname_sl
    refine ⟨dirname_pathJoin dir (stem ++ "-" ++ natRepr k ++ ext) hdir hname_sl, ?_⟩
    exact path_suffix_concat _ (stem ++ "-" ++ natRepr k) ext hb hstem2_ne
      (fun c hc => (hstem2_chars c hc).1) hext

/-- Evaluation of the rename step on a single selected entry whose source
exists, with an always-succeeding `os.rename`. -/
lemma rename_files_single_success (fs : List String) (e : ResultEntry)
    (htitle : ¬(e.title = "ERROR")) (hmem : e.filepath ∈ fs) :
    rename_files (fun _ _ => true) fs [e] =
      ⟨[{ e with
          filepath := (make_unique_path fs (dirname e.filepath)
            (sanitize_filename e.title) (path_suffix e.filepath)) }],
        make_unique_path fs (dirname e.filepath) (sanitize_filename e.title)
          (path_suffix e.filepath) :: fs.erase e.filepath, 1, 0⟩ := by
  have hv : valid_results [e] = [e] := by
    simp [valid_results, htitle]
  rw [rename_files, hv]
  rw [if_neg (by simp)]
  simp [rename_pass, hmem]

/-- C9 (amended): the rename step is not idempotent.  Renaming a selected
entry a second time with the title unchanged always renames the file again
— the first target is occupied, so a fresh name is produced — and, whenever
the entry's original path was not itself the base sanitized target, the
second target carries a numeric collision suffix `k ≥ 2`. -/
theorem rename_twice_not_idempotent (fs : List String) (e : ResultEntry)
    (htitle : ¬(e.title = "ERROR"))
    (hstem : ¬(sanitize_filename e.title = ""))
    (hmem : e.filepath ∈ fs)
    (hne : ¬(e.filepath = pathJoin (dirname e.filepath)
      (sanitize_filename e.title ++ path_suffix e.filepath))) :
    ∃ p1 p2 k,
      rename_files (fun _ _ => true) fs [e] =
        ⟨[{ e with filepath := p1 }], p1 :: fs.erase e.filepath, 1, 0⟩ ∧
      rename_files (fun _ _ => true) (p1 :: fs.erase e.filepath)
          [{ e with filepath := p1 }] =
        ⟨[{ e with filepath := p2 }],
          p2 :: (p1 :: fs.erase e.filepath).erase p1, 1, 0⟩ ∧
      ¬(p2 = p1) ∧ 2 ≤ k ∧
      p2 = suffixCand (dirname e.filepath) (sanitize_filename e.title)
        (path_suffix e.filepath) k := by
  have hdir : dirOk (dirname e.filepath) := dirname_dirOk e.filepath
  have hstem_ne : (sanitize_filename e.title).data ≠ [] := data_ne_of_ne_empty _ hstem
  have hstem_chars := sanitize_no_dot_slash e.title
  have hext : extOk (path_suffix e.filepath) := path_suffix_extOk e.filepath
  have hanat := target_anatomy (dirname e.filepath) (sanitize_filename e.title)
    (path_suffix e.filepath) hdir hstem_ne hstem_chars hext
  have hspec1 := make_unique_path_spec fs (dirname e.filepath)
    (sanitize_filename e.title) (path_suffix e.filepath)
  have h1 := rename_files_single_success fs e htitle hmem
  have hp1_anat : dirname (make_unique_path fs (dirname e.filepath)
        (sanitize_filename e.title) (path_suffix e.filepath)) = dirname e.filepath ∧
      path_suffix (make_unique_path fs (dirname e.filepath)
        (sanitize_filename e.title) (path_suffix e.filepath)) = path_suffix e.filepath := by
    by_cases hc0 : pathJoin (dirname e.filepath)
        (sanitize_filename e.title ++ path_suffix e.filepath) ∈ fs
    · rcases hspec1.2.2 hc0 with ⟨k, _, hkeq, _, _⟩
      rw [hkeq]
      exact hanat.2 k
    · rw [hspec1.2.1 hc0]
      exact hanat.1
  have hc0fs1 : pathJoin (dirname e.filepath)
      (sanitize_filename e.title ++ path_suffix e.filepath) ∈
        make_unique_path fs (dirname e.filepath) (sanitize_filename e.title)
          (path_suffix e.filepath) :: fs.erase e.filepath := by
    by_cases hc0 : pathJoin (dirname e.filepath)
        (sanitize_filename e.title ++ path_suffix e.filepath) ∈ fs
    · exact List.mem_cons_of_mem _
        ((List.mem_erase_of_ne (fun h => hne h.symm)).mpr hc0)
    · rw [← hspec1.2.1 hc0]
      exact List.mem_cons_self ..
  have hspec2 := make_unique_path_spec
    (make_unique_path fs (dirname e.filepath) (sanitize_filename e.title)
      (path_suffix e.filepath) :: fs.erase e.filepath)
    (dirname e.filepath) (sanitize_filename e.title) (path_suffix e.filepath)
  rcases hspec2.2.2 hc0fs1 with ⟨k2, hk2ge, hk2eq, _, _⟩
  have h2 := rename_files_single_success
    (make_unique_path fs (dirname e.filepath) (sanitize_filename e.title)
      (path_suffix e.filepath) :: fs.erase e.filepath)
    { e with filepath := (make_unique_path fs (dirname e.filepath)
        (sanitize_filename e.title) (path_suffix e.filepath)) }
    (by simpa using htitle) (List.mem_cons_self ..)
  refine ⟨make_unique_path fs (dirname e.filepath) (sanitize_filename e.title)
      (path_suffix e.filepath),
    make_unique_path
      (make_unique_path fs (dirname e.filepath) (sanitize_filename e.title)
        (path_suffix e.filepath) :: fs.erase e.filepath)
      (dirname e.filepath) (sanitize_filename e.title) (path_suffix e.filepath),
    k2, h1, ?_, ?_, hk2ge, hk2eq⟩
  · rw [h2]
    simp only [hp1_anat.1, hp1_anat.2]
  · intro hcontra
    apply hspec2.1
    rw [hcontra]
    exact List.mem_cons_self ..

/-- Witness for C9 at a concrete entry: `d/a.jpg` titled `"Photo"` is
renamed to `d/Photo.jpg` and, on a second pass, to `d/Photo-2.jpg`. -/
theorem rename_twice_not_idempotent_witness :
    ∃ p1 p2 k,
      rename_files (fun _ _ => true) ["d/a.jpg"]
          [ResultEntry.mk "d/a.jpg" "a.jpg" "Photo" ""] =
        ⟨[{ ResultEntry.mk "d/a.jpg" "a.jpg" "Photo" "" with filepath := p1 }],
          p1 :: ["d/a.jpg"].erase (ResultEntry.mk "d/a.jpg" "a.jpg" "Photo" "").filepath,
          1, 0⟩ ∧
      rename_files (fun _ _ => true)
          (p1 :: ["d/a.jpg"].erase (ResultEntry.mk "d/a.jpg" "a.jpg" "Photo" "").filepath)
          [{ ResultEntry.mk "d/a.jpg" "a.jpg" "Photo" "" with filepath := p1 }] =
        ⟨[{ ResultEntry.mk "d/a.jpg" "a.jpg" "Photo" "" with filepath := p2 }],
          p2 :: (p1 :: ["d/a.jpg"].erase
            (ResultEntry.mk "d/a.jpg" "a.jpg" "Photo" "").filepath).erase p1, 1, 0⟩ ∧
      ¬(p2 = p1) ∧ 2 ≤ k ∧
      p2 = suffixCand (dirname (ResultEntry.mk "d/a.jpg" "a.jpg" "Photo" "").filepath)
        (sanitize_filename (ResultEntry.mk "d/a.jpg" "a.jpg" "Photo" "").title)
        (path_suffix (ResultEntry.mk "d/a.jpg" "a.jpg" "Photo" "").filepath) k :=
  rename_twice_not_idempotent ["d/a.jpg"] (ResultEntry.mk "d/a.jpg" "a.jpg" "Photo" "")
    (by decide) (by decide) (by decide) (by decide)

/-- Counterexample to C9 as stated: when the file already occupies the base
sanitized name, the first pass moves it to `Title-2.jpg` and the second pass
moves it back to the unsuffixed `Title.jpg` — the second rename happens but
its target carries no numeric collision suffix. -/
theorem rename_twice_boundary :
    (rename_files (fun _ _ => true) ["d/Title.jpg"]
        [ResultEntry.mk "d/Title.jpg" "Title.jpg" "Title" ""]).entries =
      [ResultEntry.mk "d/Title-2.jpg" "Title.jpg" "Title" ""] ∧
    (rename_files (fun _ _ => true) ["d/Title-2.jpg"]
        [ResultEntry.mk "d/Title-2.jpg" "Title.jpg" "Title" ""]).entries =
      [ResultEntry.mk "d/Title.jpg" "Title.jpg" "Title" ""] ∧
    (rename_files (fun _ _ => true) ["d/Title-2.jpg"]
        [ResultEntry.mk "d/Title-2.jpg" "Title.jpg" "Title" ""]).renamed = 1 ∧
    '-' ∈ "d/Title-2.jpg".data ∧ ¬('-' ∈ "d/Title.jpg".data) := by
  decide
